import Mathlib

/-!
Shallow embedding of the skewer syslog collector (Go) and proofs about its
specified behaviour.  Each section embeds the part of the source that a claim
is about: pure functions become Lean functions and stateful loops become
explicit state-passing over the events that drive them.  All definitions are
executable so that concrete runs can be checked by evaluation.
-/

namespace Skewer

/-- Message identifiers (`utils.MyULID` in the source).  ULIDs are 128-bit
values; only equality and the reserved zero value matter here, so they are
modelled as naturals with `0` standing for `utils.ZeroUid`. -/
abbrev ULID := Nat

/-- The reserved "absent" identifier `utils.ZeroUid`. -/
def ZeroUid : ULID := 0

/-- Store callbacks and fatal notifications a destination can emit
(`base.ack`, `base.nack`, `base.permerr`, `base.dofatal` in
`store/dests/base.go`). -/
inductive DestEvent where
  | ack (uid : ULID)
  | nack (uid : ULID)
  | permerr (uid : ULID)
  | fatal
  deriving DecidableEq, Repr

/-! ### TCP destination (`store/dests/tcpdest.go`, `TCPDestination.sendOne`) -/

/-- Outcome of `d.clt.Send(message)` in `TCPDestination.sendOne`: the
client either writes the encoded message to the TCP connection, fails to
encode it (`encoders.IsEncodingError(err)`), or fails writing to the
connection. -/
inductive SendOutcome where
  | success
  | encodingError
  | networkError
  deriving DecidableEq, Repr

/-- One step of `TCPDestination.sendOne`.  The state is `d.previousUid`; the
result is the new `previousUid` together with the callbacks emitted, in
program order. -/
def tcpSendOne (previousUid uid : ULID) (o : SendOutcome) : ULID × List DestEvent :=
  match o with
  | .success =>
      (uid, if previousUid ≠ ZeroUid then [.ack previousUid] else [])
  | .encodingError =>
      (previousUid, [.permerr uid])
  | .networkError =>
      (ZeroUid,
        [.nack uid] ++ (if previousUid ≠ ZeroUid then [.nack previousUid] else []) ++ [.fatal])

/-- A run of `TCPDestination.sendOne` over a sequence of messages, each with
the outcome of its own `Send` call.  Returns the final `previousUid` and the
per-message blocks of emitted callbacks. -/
def tcpRun (previousUid : ULID) : List (ULID × SendOutcome) → ULID × List (List DestEvent)
  | [] => (previousUid, [])
  | (uid, o) :: rest =>
      let r := tcpSendOne previousUid uid o
      let rr := tcpRun r.1 rest
      (rr.1, r.2 :: rr.2)

theorem tcpRun_length (previousUid : ULID) (msgs : List (ULID × SendOutcome)) :
    (tcpRun previousUid msgs).2.length = msgs.length := by
  induction msgs generalizing previousUid with
  | nil => rfl
  | cons m rest ih => cases m with | mk uid o => simp [tcpRun, ih]

/-- Auxiliary soundness: an `ack u` in the `i`-th callback block can only come
from a successful send, and `u` is either the inherited `previousUid` or the
uid of an earlier successful send in the same run. -/
theorem tcpRun_ack_sound (previousUid : ULID) (msgs : List (ULID × SendOutcome))
    (i : Nat) (u : ULID) (evs : List DestEvent)
    (hblock : (tcpRun previousUid msgs).2.get? i = some evs)
    (hack : DestEvent.ack u ∈ evs) :
    u ≠ ZeroUid ∧
    (∃ p, msgs.get? i = some p ∧ p.2 = SendOutcome.success) ∧
    (u = previousUid ∨
      ∃ j, j < i ∧ ∃ q, msgs.get? j = some q ∧ q.1 = u ∧ q.2 = SendOutcome.success) := by
  induction msgs generalizing previousUid i with
  | nil => simp [tcpRun] at hblock
  | cons m rest ih =>
    cases m with
    | mk uid o =>
      cases i with
      | zero =>
        simp only [tcpRun, List.get?] at hblock
        cases hblock
        cases o with
        | success =>
          by_cases hprev : previousUid ≠ ZeroUid
          · simp [tcpSendOne, hprev] at hack
            subst hack
            exact ⟨hprev, ⟨(uid, .success), rfl, rfl⟩, Or.inl rfl⟩
          · simp [tcpSendOne, hprev] at hack
        | encodingError => simp [tcpSendOne] at hack
        | networkError =>
          by_cases hprev : previousUid ≠ ZeroUid <;> simp [tcpSendOne, hprev] at hack
      | succ i =>
        simp only [tcpRun, List.get?] at hblock
        obtain ⟨hu, ⟨p, hp, hps⟩, hrest⟩ := ih (tcpSendOne previousUid uid o).1 i hblock
        refine ⟨hu, ⟨p, by simpa using hp, hps⟩, ?_⟩
        rcases hrest with heq | ⟨j, hj, q, hq, hq1, hq2⟩
        · cases o with
          | success =>
            -- the new previousUid is the uid of message 0, which succeeded
            right
            refine ⟨0, Nat.succ_pos i, (uid, .success), rfl, ?_, rfl⟩
            have : u = uid := by simpa [tcpSendOne] using heq
            exact this.symm
          | encodingError =>
            left; simpa [tcpSendOne] using heq
          | networkError =>
            exfalso; apply hu; simpa [tcpSendOne] using heq
        · right
          exact ⟨j + 1, Nat.succ_lt_succ hj, q, by simpa using hq, hq1, hq2⟩

/-- C10: in `TCPDestination.sendOne`, a successful send acks only the
previously sent uid and leaves the current uid pending; an encoding error
permerrs the current uid only and keeps the pending uid; a network write
error nacks the current uid and the pending previous uid and fires the fatal
channel; and over any run starting with no pending uid, an `ack u` emitted at
step `i` implies that step `i` was a successful send of a later message and
`u` was sent successfully at an earlier step `j < i`: no uid is acked before
a subsequent message has been written to the connection. -/
theorem tcp_dest_ack_after_next_write
    (prev uid : ULID) (hprev : prev ≠ ZeroUid)
    (msgs : List (ULID × SendOutcome)) (i : Nat) (u : ULID) (evs : List DestEvent)
    (hblock : (tcpRun ZeroUid msgs).2.get? i = some evs)
    (hack : DestEvent.ack u ∈ evs) :
    (tcpSendOne prev uid .success = (uid, [.ack prev])) ∧
    (tcpSendOne ZeroUid uid .success = (uid, [])) ∧
    (tcpSendOne prev uid .encodingError = (prev, [.permerr uid])) ∧
    (tcpSendOne prev uid .networkError = (ZeroUid, [.nack uid, .nack prev, .fatal])) ∧
    (tcpSendOne ZeroUid uid .networkError = (ZeroUid, [.nack uid, .fatal])) ∧
    ((∃ p, msgs.get? i = some p ∧ p.2 = SendOutcome.success) ∧
      ∃ j, j < i ∧ ∃ q, msgs.get? j = some q ∧ q.1 = u ∧ q.2 = SendOutcome.success) := by
  refine ⟨by simp [tcpSendOne, hprev], by simp [tcpSendOne, ZeroUid],
    by simp [tcpSendOne], by simp [tcpSendOne, hprev], by simp [tcpSendOne, ZeroUid], ?_⟩
  obtain ⟨hu, hsucc, hrest⟩ := tcpRun_ack_sound ZeroUid msgs i u evs hblock hack
  refine ⟨hsucc, ?_⟩
  rcases hrest with heq | h
  · exact absurd heq hu
  · exact h

/-- Witness for C10: a concrete three-message run `a, b, c` where all sends
succeed; the ack for `a` appears in block 1 (after `b` was written). -/
theorem tcp_dest_ack_after_next_write_witness :
    (5 : ULID) ≠ ZeroUid ∧
    (tcpRun ZeroUid [(5, .success), (6, .success), (7, .success)]).2.get? 1 =
      some [DestEvent.ack 5] ∧
    DestEvent.ack 5 ∈ [DestEvent.ack 5] ∧
    ((∃ p, ([((5 : ULID), SendOutcome.success), (6, .success), (7, .success)]).get? 1 = some p ∧
        p.2 = SendOutcome.success) ∧
      ∃ j, j < 1 ∧ ∃ q,
        ([((5 : ULID), SendOutcome.success), (6, .success), (7, .success)]).get? j = some q ∧
          q.1 = 5 ∧ q.2 = SendOutcome.success) :=
  ⟨by decide, by decide, by decide,
    (tcp_dest_ack_after_next_write 9 4 (by decide)
      [(5, .success), (6, .success), (7, .success)] 1 5 [DestEvent.ack 5]
      (by decide) (by decide)).2.2.2.2.2⟩

/-! ### HTTP destination (`HTTPDestination.dosendOne`) -/

/-- What happens to one message inside `HTTPDestination.dosendOne`: executing
the URL template, encoding the body, building the `http.Request`, performing
the round trip (which can fail at transport level), and otherwise the
response status code. -/
inductive HttpOutcome where
  | urlTemplateError
  | encodeError
  | requestBuildError
  | transportError
  | response (status : Nat)
  deriving DecidableEq, Repr

/-- `HTTPDestination.dosendOne`: the callbacks emitted for the message's uid,
in program order, together with whether a non-nil error is returned to the
caller (`dosend` treats a non-nil error as fatal). -/
def dosendOne (uid : ULID) (o : HttpOutcome) : List DestEvent × Bool :=
  match o with
  | .urlTemplateError => ([.permerr uid], false)
  | .encodeError => ([.permerr uid], false)
  | .requestBuildError => ([.permerr uid], false)
  | .transportError => ([.nack uid], true)
  | .response status =>
      if 200 ≤ status ∧ status < 300 then ([.ack uid], false)
      else if 400 ≤ status ∧ status < 500 then ([.nack uid], true)
      else if 500 ≤ status ∧ status < 600 then ([.nack uid], true)
      else ([.nack uid], true)

/-- Counterexample to C5 as stated: on a 4xx-class response the HTTP
destination invokes `nack` (transient), not `permerr`, for the message's
uid.  Evaluated at status 400. -/
theorem http_4xx_nacks_counterexample :
    (dosendOne 3 (.response 400)).1 = [DestEvent.nack 3] ∧
      ([DestEvent.nack 3] ≠ [DestEvent.permerr 3]) := by
  decide

/-- C5 (amended): `HTTPDestination.dosendOne` invokes exactly one store
callback per processed message, for that message's uid: `ack` on a 2xx
response, `permerr` on a URL-template, encoding, or request-construction
error, and `nack` both on a transport-level send failure and on every
non-2xx response (4xx-class included). -/
theorem http_dosendOne_one_callback (uid : ULID) (o : HttpOutcome) :
    (dosendOne uid o).1 =
      [match o with
       | .response s => if 200 ≤ s ∧ s < 300 then DestEvent.ack uid else DestEvent.nack uid
       | .transportError => DestEvent.nack uid
       | _ => DestEvent.permerr uid] := by
  cases o with
  | response s =>
    by_cases h1 : 200 ≤ s ∧ s < 300
    · simp [dosendOne, h1]
    · by_cases h2 : 400 ≤ s ∧ s < 500
      · simp [dosendOne, h1, h2]
      · by_cases h3 : 500 ≤ s ∧ s < 600 <;> simp [dosendOne, h1, h2, h3]
  | urlTemplateError => rfl
  | encodeError => rfl
  | requestBuildError => rfl
  | transportError => rfl

/-! ### TCP source connection handler (`tcpHandler.HandleConnection`) -/

/-- Raw bytes of one demarcated frame, as delivered by the scanner. -/
abbrev Frame := List Nat

/-- The per-frame body of the scan loop in `tcpHandler.HandleConnection`:
empty frames are skipped; when `MaxMessageSize > 0`, a frame longer than
`MaxMessageSize` makes the handler return (closing the client connection)
without enqueueing; otherwise the frame is copied into a `RawTcpMessage` and
`Put` on the raw-message ring.  Returns the frames enqueued, in order, and
whether the handler returned early because of an oversized frame. -/
def handleFrames (maxMessageSize : Nat) : List Frame → List Frame × Bool
  | [] => ([], false)
  | buf :: rest =>
      if buf.length = 0 then handleFrames maxMessageSize rest
      else if 0 < maxMessageSize ∧ maxMessageSize < buf.length then ([], true)
      else
        let r := handleFrames maxMessageSize rest
        (buf :: r.1, r.2)

/-- C4: with `max_input_message_size` configured (positive), every enqueued
frame fits in the bound; a frame of length exactly the bound is enqueued and
the handler continues; and a frame longer than the bound is dropped without
being enqueued, with the handler returning (which closes the client
connection). -/
theorem tcp_max_input_message_size (maxMessageSize : Nat) (hpos : 0 < maxMessageSize) :
    (∀ frames f, f ∈ (handleFrames maxMessageSize frames).1 → f.length ≤ maxMessageSize) ∧
    (∀ (f : Frame) rest, f.length = maxMessageSize →
      handleFrames maxMessageSize (f :: rest) =
        (f :: (handleFrames maxMessageSize rest).1, (handleFrames maxMessageSize rest).2)) ∧
    (∀ (f : Frame) rest, maxMessageSize < f.length →
      handleFrames maxMessageSize (f :: rest) = ([], true)) := by
  refine ⟨?_, ?_, ?_⟩
  · intro frames
    induction frames with
    | nil => intro f h; simp [handleFrames] at h
    | cons buf rest ih =>
      intro f h
      by_cases h0 : buf.length = 0
      · exact ih f (by simpa [handleFrames, h0] using h)
      · by_cases hover : maxMessageSize < buf.length
        · simp [handleFrames, h0, hpos, hover] at h
        · have hcond : ¬ (0 < maxMessageSize ∧ maxMessageSize < buf.length) := by omega
          simp only [handleFrames, h0, hcond, if_false, ite_false] at h
          rcases List.mem_cons.mp h with rfl | hmem
          · exact Nat.le_of_not_lt hover
          · exact ih f hmem
  · intro f rest hlen
    have h0 : ¬ f.length = 0 := by omega
    have hover : ¬ (0 < maxMessageSize ∧ maxMessageSize < f.length) := by omega
    simp [handleFrames, h0, hover]
  · intro f rest hover
    have h0 : ¬ f.length = 0 := by omega
    simp [handleFrames, h0, hpos, hover]

/-- Witness for C4 at `max_input_message_size = 2`: the two-byte frame is
enqueued, the three-byte frame closes the connection without enqueueing. -/
theorem tcp_max_input_message_size_witness :
    (0 : Nat) < 2 ∧
    handleFrames 2 [[65, 66]] = ([[65, 66]], false) ∧
    handleFrames 2 [[65, 66, 67], [68]] = ([], true) :=
  ⟨by decide,
    by
      have h := (tcp_max_input_message_size 2 (by decide)).2.1 [65, 66] [] (by decide)
      simpa using h,
    (tcp_max_input_message_size 2 (by decide)).2.2 [65, 66, 67] [[68]] (by decide)⟩

/-! ### Configuration reload in the serve child (`serveChild.Serve`) -/

/-- The `Store` section of a configuration snapshot (`conf.StoreConfig`):
the on-disk path and, abstracted into one field, the remaining store
settings. -/
structure StoreConfig where
  dirname : String
  otherStoreSettings : Nat
  deriving DecidableEq, Repr

/-- The `Main` section (`conf.MainConfig`): the `EncryptIPC` flag and,
abstracted into one field, the remaining main settings. -/
structure MainConfig where
  encryptIPC : Bool
  otherMainSettings : Nat
  deriving DecidableEq, Repr

/-- A configuration snapshot (`conf.BaseConfig`) as `serveChild.Serve` treats
it: the `Store` section, the `Main` section, and all remaining sections
(sources, parsers, destinations, metrics) abstracted into one field. -/
structure BaseConfig where
  store : StoreConfig
  main : MainConfig
  otherSections : Nat
  deriving DecidableEq, Repr

/-- The snapshot-acceptance step of `serveChild.Serve`: on receiving
`newConf` from the configuration channel, the child executes
`newConf.Store = ch.conf.Store`, `newConf.Main.EncryptIPC =
ch.conf.Main.EncryptIPC`, then `ch.conf = newConf`.  Returns the newly
active configuration. -/
def acceptNewConf (cur newConf : BaseConfig) : BaseConfig :=
  { newConf with
      store := cur.store,
      main := { newConf.main with encryptIPC := cur.main.encryptIPC } }

/-- Counterexample to C7 as stated: the claim says only the non-Store
sections are replaced, but `serveChild.Serve` also retains the previous
`Main.EncryptIPC`, so the newly active `Main` section differs from the one
the incoming snapshot carries. -/
theorem reload_keeps_encryptIPC_counterexample :
    (acceptNewConf
        ⟨⟨"/var/lib/skewer", 1⟩, ⟨false, 1⟩, 1⟩
        ⟨⟨"/tmp/other", 2⟩, ⟨true, 2⟩, 2⟩).store = ⟨"/var/lib/skewer", 1⟩ ∧
    (acceptNewConf
        ⟨⟨"/var/lib/skewer", 1⟩, ⟨false, 1⟩, 1⟩
        ⟨⟨"/tmp/other", 2⟩, ⟨true, 2⟩, 2⟩).main ≠ ⟨true, 2⟩ := by
  decide

/-- C7 (amended): on every accepted reload, the Store section of the newly
active configuration (its on-disk path included) equals the Store section of
the previously active configuration, regardless of what the incoming
snapshot carries; the other sections are replaced by the incoming ones,
except that `Main.EncryptIPC` is likewise retained from the previous
configuration. -/
theorem reload_preserves_store_section (cur newConf : BaseConfig) :
    (acceptNewConf cur newConf).store = cur.store ∧
    (acceptNewConf cur newConf).store.dirname = cur.store.dirname ∧
    (acceptNewConf cur newConf).main.encryptIPC = cur.main.encryptIPC ∧
    (acceptNewConf cur newConf).main.otherMainSettings = newConf.main.otherMainSettings ∧
    (acceptNewConf cur newConf).otherSections = newConf.otherSections :=
  ⟨rfl, rfl, rfl, rfl, rfl⟩

/-! ### Configuration provider child (`LaunchConfProvider`)

Two copies of `LaunchConfProvider` exist in the repository: the one in
`services/configuration.go` and the one in the `services` package file that
also holds the TCP service.  They differ exactly in the `consulparams`
handler, so both handlers are embedded. -/

/-- Consul connection parameters (`consul.ConnParams`): the fields relevant
here, with the remaining ones abstracted into one field. -/
structure ConnParams where
  address : String
  datacenter : String
  otherParams : Nat
  deriving DecidableEq, Repr

/-- The zero value `consul.ConnParams{}`. -/
def zeroConnParams : ConnParams := ⟨"", "", 0⟩

/-- The `consulparams` handler of `LaunchConfProvider` in
`services/configuration.go`.  The payload decoding is passed in already
performed (`decoded = none` models a JSON unmarshal error).  The source
reads: `newparams := consul.ConnParams{}` then
`json.Unmarshal([]byte(parts[1]), &params)` — decoding into `params`, not
`newparams` — and on success `params = newparams`, overwriting `params` with
the zero value. -/
def consulparamsStepOld (params : ConnParams) (decoded : Option ConnParams) :
    Except String ConnParams :=
  match decoded with
  | some decodedParams =>
      let params := decodedParams
      let newparams := zeroConnParams
      let params := newparams
      .ok params
  | none => .error "error unmarshaling consulparams received from parent"

/-- The `consulparams` handler of the second `LaunchConfProvider` copy:
`newparams := consul.ConnParams{}`, `json.Unmarshal([]byte(parts[1]),
&newparams)`, and on success `params = newparams`. -/
def consulparamsStepNew (params : ConnParams) (decoded : Option ConnParams) :
    Except String ConnParams :=
  match decoded with
  | some newparams => .ok newparams
  | none => .error "error unmarshaling consulparams received from parent"

/-- Commands of the `LaunchConfProvider` stdin loop that touch the consul
parameters or use them.  `consulparams` carries the result of decoding its
JSON payload. -/
inductive ConfCmd where
  | confdir (d : String)
  | consulparams (decoded : Option ConnParams)
  | start
  | reload
  deriving DecidableEq, Repr

/-- State of the `LaunchConfProvider` loop: the current `confdir` and
`params` locals, plus the sequence of `ConnParams` values passed to `start`
(that is, to `conf.InitLoad`) by the `start` and `reload` commands. -/
structure ConfProvState where
  confdir : String
  params : ConnParams
  startCalls : List ConnParams
  deriving DecidableEq, Repr

/-- One iteration of the `LaunchConfProvider` loop, parametrised by the
`consulparams` handler (the only point where the two copies differ).  A
decoding error terminates the loop; termination is modelled by leaving the
state unchanged, which is enough for the claims about `params`. -/
def confProvStep (handler : ConnParams → Option ConnParams → Except String ConnParams)
    (st : ConfProvState) (c : ConfCmd) : ConfProvState :=
  match c with
  | .confdir d => { st with confdir := d }
  | .consulparams decoded =>
      match handler st.params decoded with
      | .ok p => { st with params := p }
      | .error _ => st
  | .start => { st with startCalls := st.startCalls ++ [st.params] }
  | .reload => { st with startCalls := st.startCalls ++ [st.params] }

/-- A run of the `LaunchConfProvider` loop from its initial state (empty
confdir, zero-valued `params`). -/
def confProvRun (handler : ConnParams → Option ConnParams → Except String ConnParams)
    (cmds : List ConfCmd) : ConfProvState :=
  cmds.foldl (confProvStep handler) ⟨"", zeroConnParams, []⟩

/-- C6 (code bug): in the `services/configuration.go` copy, after receiving
`consulparams` with a payload that decodes to a non-zero `ConnParams`, the
following `start` uses the zero-valued parameters, not the decoded ones —
while the other copy of `LaunchConfProvider` in the repository uses the
decoded value, as the claim states.  Evaluated at a concrete command
sequence. -/
theorem consulparams_shadowing_bug :
    (confProvRun consulparamsStepOld
        [.consulparams (some ⟨"consul1:8500", "dc1", 7⟩), .start]).startCalls =
      [zeroConnParams] ∧
    zeroConnParams ≠ (⟨"consul1:8500", "dc1", 7⟩ : ConnParams) ∧
    (confProvRun consulparamsStepNew
        [.consulparams (some ⟨"consul1:8500", "dc1", 7⟩), .start]).startCalls =
      [⟨"consul1:8500", "dc1", 7⟩] := by
  decide

/-! ### Binder connection tables (`sys/binderserver.go`, `Binder`) -/

/-- Events driving the binder's connection-table goroutine.
`newStreamConn`/`newPacketConn` model a `BinderConn`/`BinderPacketConn` with
a non-nil `Conn` arriving on `schan`/`pchan` from an accept loop or a
`listen` command; `fileOk` is whether `conn.File()` succeeded (only then is
the connection retained and `newconn <uid> <addr>` emitted with the fd).
`closeconn` models the `closeconn <uid>` command (which is forwarded to both
the stream and the packet table); `reset` the `reset` command. -/
inductive BinderEvent where
  | newStreamConn (uid : String) (fileOk : Bool)
  | newPacketConn (uid : String) (fileOk : Bool)
  | closeconn (uid : String)
  | reset
  deriving DecidableEq, Repr

/-- The binder's connection tables: the keys of the `connections`,
`packetconnections` and `connfiles` maps (the mapped values — live `net.Conn`
and `os.File` handles — carry no further information for the claims). -/
structure BinderState where
  connections : List String
  packetconnections : List String
  connfiles : List String
  deriving DecidableEq, Repr

/-- Map assignment `m[uid] = v` restricted to the key set. -/
def tableInsert (l : List String) (uid : String) : List String :=
  if uid ∈ l then l else l ++ [uid]

/-- The stream branch of the table goroutine for a `BinderConn` with nil
`Conn`: empty uid closes every stream connection (and its retained file);
otherwise the one entry with that uid is closed and deleted. -/
def closeStream (st : BinderState) (uid : String) : BinderState :=
  if uid = "" then
    { st with
        connfiles := st.connfiles.filter (fun u => !(st.connections.contains u)),
        connections := [] }
  else
    { st with
        connfiles := st.connfiles.filter (fun u => u ≠ uid),
        connections := st.connections.filter (fun u => u ≠ uid) }

/-- The packet branch for a `BinderPacketConn` with nil `Conn`. -/
def closePacket (st : BinderState) (uid : String) : BinderState :=
  if uid = "" then
    { st with
        connfiles := st.connfiles.filter (fun u => !(st.packetconnections.contains u)),
        packetconnections := [] }
  else
    { st with
        connfiles := st.connfiles.filter (fun u => u ≠ uid),
        packetconnections := st.packetconnections.filter (fun u => u ≠ uid) }

/-- One event of the binder's connection-table goroutine, together with the
`newconn` messages it writes to the child over the Unix socket. -/
def binderStep (st : BinderState) (e : BinderEvent) : BinderState × List String :=
  match e with
  | .newStreamConn uid fileOk =>
      if fileOk then
        ({ st with
            connections := tableInsert st.connections uid,
            connfiles := tableInsert st.connfiles uid },
         ["newconn " ++ uid])
      else (st, [])
  | .newPacketConn uid fileOk =>
      if fileOk then
        ({ st with
            packetconnections := tableInsert st.packetconnections uid,
            connfiles := tableInsert st.connfiles uid },
         ["newconn " ++ uid])
      else (st, [])
  | .closeconn uid => (closePacket (closeStream st uid) uid, [])
  | .reset => (closePacket (closeStream st "") "", [])

/-- A run of the connection-table goroutine (emitted messages discarded). -/
def binderRun (st : BinderState) (events : List BinderEvent) : BinderState :=
  events.foldl (fun s e => (binderStep s e).1) st

/-- The binder's initial connection tables (all maps empty). -/
def binderInit : BinderState := ⟨[], [], []⟩

theorem tableInsert_mem (l : List String) (u v : String) (h : u ∈ l) :
    u ∈ tableInsert l v := by
  unfold tableInsert
  split
  · exact h
  · exact List.mem_append_left _ h

theorem binderRun_retains (st : BinderState) (uid : String) (events : List BinderEvent)
    (hmem : uid ∈ st.connections) (huid : uid ≠ "")
    (hevents : ∀ e ∈ events, e ≠ BinderEvent.closeconn uid ∧
      e ≠ BinderEvent.closeconn "" ∧ e ≠ BinderEvent.reset) :
    uid ∈ (binderRun st events).connections := by
  induction events generalizing st with
  | nil => exact hmem
  | cons e rest ih =>
    have he := hevents e (List.mem_cons_self e rest)
    have hrest : ∀ x ∈ rest, x ≠ BinderEvent.closeconn uid ∧
        x ≠ BinderEvent.closeconn "" ∧ x ≠ BinderEvent.reset :=
      fun x hx => hevents x (List.mem_cons_of_mem e hx)
    have hstep : uid ∈ ((binderStep st e).1).connections := by
      cases e with
      | newStreamConn u ok =>
        cases ok with
        | false => simpa [binderStep] using hmem
        | true => simp only [binderStep]; exact tableInsert_mem _ _ _ hmem
      | newPacketConn u ok =>
        cases ok with
        | false => simpa [binderStep] using hmem
        | true => simpa [binderStep] using hmem
      | closeconn u =>
        have hneu : u ≠ uid := fun h => he.1 (by rw [h])
        have hne0 : u ≠ "" := fun h => he.2.1 (by rw [h])
        simp only [binderStep, closePacket, closeStream, if_neg hne0]
        exact List.mem_filter.mpr ⟨hmem, by simp [Ne.symm hneu]⟩
      | reset => exact absurd rfl he.2.2
    exact ih _ hstep hrest

theorem tableInsert_self (l : List String) (u : String) : u ∈ tableInsert l u := by
  unfold tableInsert
  split
  · assumption
  · exact List.mem_append_right _ (List.mem_singleton.mpr rfl)

/-- C2: a stream connection fd whose `newconn <uid> <addr>` was emitted to
the child stays in the binder's `connections` table through any later events
that are not a `closeconn` for that uid, a `closeconn` with empty uid, or a
`reset`; a `closeconn <uid>` removes the uid from both connection tables;
and a `closeconn` with empty uid, like a `reset`, closes and drops every
retained stream and packet connection. -/
theorem binder_retains_until_closeconn (pre post : List BinderEvent) (uid : String)
    (huid : uid ≠ "")
    (hpost : ∀ e ∈ post, e ≠ BinderEvent.closeconn uid ∧
      e ≠ BinderEvent.closeconn "" ∧ e ≠ BinderEvent.reset) :
    uid ∈ (binderRun binderInit (pre ++ BinderEvent.newStreamConn uid true :: post)).connections ∧
    (∀ st : BinderState,
      uid ∉ ((binderStep st (BinderEvent.closeconn uid)).1).connections ∧
      uid ∉ ((binderStep st (BinderEvent.closeconn uid)).1).packetconnections) ∧
    (∀ st : BinderState,
      ((binderStep st (BinderEvent.closeconn "")).1).connections = [] ∧
      ((binderStep st (BinderEvent.closeconn "")).1).packetconnections = [] ∧
      ((binderStep st BinderEvent.reset).1).connections = [] ∧
      ((binderStep st BinderEvent.reset).1).packetconnections = []) := by
  refine ⟨?_, ?_, ?_⟩
  · have hsplit :
        binderRun binderInit (pre ++ BinderEvent.newStreamConn uid true :: post) =
          binderRun ((binderStep (binderRun binderInit pre)
            (BinderEvent.newStreamConn uid true)).1) post := by
      simp [binderRun, List.foldl_append]
    rw [hsplit]
    apply binderRun_retains _ uid post _ huid hpost
    simp only [binderStep, if_pos]
    exact tableInsert_self _ _
  · intro st
    constructor
    · simp only [binderStep, closePacket, closeStream]
      by_cases h0 : uid = ""
      · simp [h0]
      · simp [if_neg h0, List.mem_filter]
    · simp only [binderStep, closePacket, closeStream]
      by_cases h0 : uid = ""
      · simp [h0]
      · simp [if_neg h0, List.mem_filter]
  · intro st
    refine ⟨?_, ?_, ?_, ?_⟩ <;> simp [binderStep, closePacket, closeStream]

/-- Witness for C2: a concrete trace in which connection `c1` is accepted,
an unrelated packet connection arrives before it and an unrelated
`closeconn` and stream connection follow it; `c1` is still retained. -/
theorem binder_retains_until_closeconn_witness :
    ("c1" : String) ≠ "" ∧
    "c1" ∈ (binderRun binderInit
        ([BinderEvent.newPacketConn "p0" true] ++
          BinderEvent.newStreamConn "c1" true ::
            [BinderEvent.closeconn "p0", BinderEvent.newStreamConn "c2" true])).connections :=
  ⟨by decide,
    (binder_retains_until_closeconn
      [BinderEvent.newPacketConn "p0" true] [BinderEvent.closeconn "p0",
        BinderEvent.newStreamConn "c2" true] "c1" (by decide) (by decide)).1⟩

/-! ### TCP frame splitter (`TcpSplit` in the `network` package file) -/

/-- Membership in the cutset `" \r\n"` used by `bytes.TrimLeft` and
`bytes.Trim` in `TcpSplit`. -/
def isSpaceCRLF (b : Nat) : Bool := b == 32 || b == 13 || b == 10

/-- `bytes.TrimLeft(data, " \r\n")`. -/
def trimLeftWS (l : List Nat) : List Nat := l.dropWhile isSpaceCRLF

/-- `bytes.Trim(data, " \r\n")`. -/
def trimWS (l : List Nat) : List Nat :=
  ((l.dropWhile isSpaceCRLF).reverse.dropWhile isSpaceCRLF).reverse

/-- Accumulator loop for the digits of a decimal literal. -/
def digitsValGo : List Nat → Nat → Option Nat
  | [], acc => some acc
  | d :: rest, acc =>
      if 48 ≤ d ∧ d ≤ 57 then digitsValGo rest (acc * 10 + (d - 48)) else none

/-- Value of a non-empty all-digit byte string. -/
def digitsVal : List Nat → Option Nat
  | [] => none
  | d :: rest => digitsValGo (d :: rest) 0

/-- `strconv.Atoi`: optional sign, then at least one decimal digit (the
64-bit overflow error is not modelled; the lengths involved here are far
below it). -/
def goAtoi (l : List Nat) : Option Int :=
  match l with
  | 43 :: rest => (digitsVal rest).map (fun n => (n : Int))
  | 45 :: rest => (digitsVal rest).map (fun n => -(n : Int))
  | _ => (digitsVal l).map (fun n => (n : Int))

/-- Result of one call to a `bufio.SplitFunc`: `needMore` is
`(0, nil, eoferr)` (ask for more data, or stop at EOF), `frame` is a
demarcated token with its advance count, and `fault` marks the slice
expressions that panic at runtime (Go `data[0:lf]` with `lf = -1`, or a
negative octet count making the high slice index smaller than the low
one). -/
inductive SplitRes where
  | needMore
  | frame (advance : Nat) (token : List Nat)
  | fault
  deriving DecidableEq, Repr

/-- `getline` (the LF fallback of `TcpSplit`): `lf := bytes.IndexByte(data,
LF)`; when `lf == 0` ask for more data; when no LF is present `lf = -1` and
`data[0:lf]` panics; otherwise return the bytes up to the LF, trimmed of
`" \r\n"`, advancing past the LF. -/
def getline (data : List Nat) (trimmed : Nat) : SplitRes :=
  match data.findIdx? (fun b => b == 10) with
  | none => .fault
  | some lf =>
      if lf = 0 then .needMore
      else .frame (lf + trimmed + 1) (trimWS (data.take lf))

/-- `TcpSplit`: trim leading whitespace; a frame starting with `<` is
LF-delimited; otherwise the token before the first space or LF is parsed as
a decimal octet count and exactly that many following bytes form the frame
(returned trimmed of `" \r\n"`); if the parse fails, fall back to
LF-delimited framing. -/
def tcpSplit (data : List Nat) : SplitRes :=
  let trimmedData := trimLeftWS data
  if trimmedData.length = 0 then .needMore
  else
    let trimmed := data.length - trimmedData.length
    if trimmedData.headD 0 = 60 then getline trimmedData trimmed
    else
      match trimmedData.findIdx? (fun b => b == 32 || b == 10) with
      | none => .needMore
      | some sp =>
          if sp = 0 then .needMore else
          let datalenStr := trimWS (trimmedData.take sp)
          match goAtoi datalenStr with
          | none => getline trimmedData trimmed
          | some datalen =>
              if datalen < 0 then .fault
              else
                let advance := trimmed + sp + 1 + datalen.toNat
                if data.length < advance then .needMore
                else .frame advance (trimWS ((trimmedData.drop (sp + 1)).take datalen.toNat))

/-- Counterexample to C3 as stated: on input `"4 ab  "` the splitter
consumes the 4 bytes `"ab  "` after the separating space but returns the
trimmed token `"ab"`, not exactly those 4 bytes. -/
theorem tcpSplit_trims_token_counterexample :
    tcpSplit [52, 32, 97, 98, 32, 32] = SplitRes.frame 6 [97, 98] ∧
      ([97, 98] : List Nat) ≠ [97, 98, 32, 32] := by
  decide

/-- C3 (amended): for input whose first non-whitespace byte is not `<`, the
splitter interprets the leading token (up to the first space or LF) as a
decimal octet count `N`; on success it consumes exactly the `N` bytes
following the separator and returns them, trimmed of spaces, CRs and LFs,
as the frame; if the parse fails it falls back to LF-delimited framing and
returns the bytes up to the next LF, likewise trimmed. -/
theorem tcpSplit_octet_counting (data rest : List Nat) (sp : Nat)
    (htrim : trimLeftWS data = rest)
    (hne : rest ≠ [])
    (hhead : rest.headD 0 ≠ 60)
    (hidx : rest.findIdx? (fun b => b == 32 || b == 10) = some sp)
    (hsp : 0 < sp) :
    (∀ n : Nat, goAtoi (trimWS (rest.take sp)) = some (n : Int) →
      (data.length - rest.length) + sp + 1 + n ≤ data.length →
      tcpSplit data = SplitRes.frame ((data.length - rest.length) + sp + 1 + n)
        (trimWS ((rest.drop (sp + 1)).take n))) ∧
    (goAtoi (trimWS (rest.take sp)) = none →
      ∀ lf : Nat, rest.findIdx? (fun b => b == 10) = some lf → 0 < lf →
        tcpSplit data = SplitRes.frame (lf + (data.length - rest.length) + 1)
          (trimWS (rest.take lf))) := by
  have hlen : ¬ rest.length = 0 := fun h => hne (List.eq_nil_of_length_eq_zero h)
  have hsp0 : ¬ sp = 0 := by omega
  constructor
  · intro n hatoi hle
    simp only [tcpSplit, htrim, hlen, if_false, if_neg hhead, hidx, if_neg hsp0, hatoi]
    have hnonneg : ¬ ((n : Int) < 0) := by omega
    simp only [if_neg hnonneg, Int.toNat_natCast]
    rw [if_neg (by omega)]
  · intro hatoi lf hlf hlfpos
    have hlf0 : ¬ lf = 0 := by omega
    simp only [tcpSplit, htrim, hlen, if_false, if_neg hhead, hidx, if_neg hsp0, hatoi,
      getline, hlf, if_neg hlf0]

/-- Witness for C3: on `"5 hello"` the splitter returns the 5 bytes
`"hello"` after the separator, advancing by 7. -/
theorem tcpSplit_octet_counting_witness :
    tcpSplit [53, 32, 104, 101, 108, 108, 111] =
      SplitRes.frame 7 [104, 101, 108, 108, 111] := by
  have h := (tcpSplit_octet_counting [53, 32, 104, 101, 108, 108, 111]
    [53, 32, 104, 101, 108, 108, 111] 1 (by decide) (by decide) (by decide)
    (by decide) (by decide)).1 5 (by decide) (by decide)
  exact h

/-! ### Direct RELP ordered responses (`DirectRelpServiceImpl.handleResponses`)

The `handleResponses` loop is embedded from `services/network/directrelp.go`.
The per-connection `ackForwarder` it drives (`GetSucc`, `GetFail`,
`NextToCommit`, `Commit`) is not among the sources at hand — only its call
sites are — so it is modelled from the spec (§4.7): the forwarder keeps
three queues per connection, `succ`, `fail` and `next_to_commit`, the last
holding the txnrs of the frames sent on the connection in arrival order;
`NextToCommit` peeks it (the int queues return `-1` when empty) and `Commit`
pops it.  Verdicts delivered by `GetSucc`/`GetFail` are modelled as a single
interleaved event list; successful writes to the client are assumed (write
errors end the goroutine and are outside the claim). -/

/-- RELP transaction numbers (`int32` in the source; `-1` is the sentinel
the forwarder's int queues return when empty). -/
abbrev Txnr := Int

/-- Lookup in a Go `map[int32]bool`, modelled as an association list:
`none` means the key is absent. -/
def mlookup : List (Txnr × Bool) → Txnr → Option Bool
  | [], _ => none
  | (k, v) :: rest, t => if k = t then some v else mlookup rest t

/-- Assignment `m[t] = b` on a Go `map[int32]bool`. -/
def mset : List (Txnr × Bool) → Txnr → Bool → List (Txnr × Bool)
  | [], t, b => [(t, b)]
  | (k, v) :: rest, t, b =>
      if k = t then (k, b) :: rest else (k, v) :: mset rest t b

/-- State of one connection's `handleResponses` goroutine: the local
`successes` and `failures` maps, the forwarder's `next_to_commit` queue
(`pending`), and the `rsp` frames written to the client so far, in order
(`true` for `200 OK`, `false` for `500 KO`). -/
structure RelpConnState where
  successes : List (Txnr × Bool)
  failures : List (Txnr × Bool)
  pending : List Txnr
  written : List (Txnr × Bool)
  deriving DecidableEq, Repr

/-- Recording one verdict delivered by `GetSucc`/`GetFail`: `-1` means the
queue was empty; a txnr already present in either map (already recorded, or
already answered) is ignored; otherwise it is marked `true` in the matching
map. -/
def recordVerdict (st : RelpConnState) (v : Txnr × Bool) : RelpConnState :=
  if v.1 = -1 then st
  else if (mlookup st.successes v.1).isSome ∨ (mlookup st.failures v.1).isSome then st
  else if v.2 then { st with successes := mset st.successes v.1 true }
  else { st with failures := mset st.failures v.1 true }

/-- The `Cooking` loop: while the forwarder's next-to-commit txnr has a
recorded verdict, write the matching `rsp` frame, mark the map entry
`false`, and `Commit` (pop the queue); stop as soon as the next txnr has no
verdict yet, or the queue is empty (`NextToCommit` returns `-1`). -/
def cookPending : List Txnr → List (Txnr × Bool) → List (Txnr × Bool) → List (Txnr × Bool) →
    List Txnr × List (Txnr × Bool) × List (Txnr × Bool) × List (Txnr × Bool)
  | [], succ, fail, written => ([], succ, fail, written)
  | next :: rest, succ, fail, written =>
      if mlookup succ next = some true then
        cookPending rest (mset succ next false) fail (written ++ [(next, true)])
      else if mlookup fail next = some true then
        cookPending rest succ (mset fail next false) (written ++ [(next, false)])
      else (next :: rest, succ, fail, written)

/-- One iteration of the outer `handleResponses` loop: record a delivered
verdict, then run the `Cooking` loop. -/
def relpStep (st : RelpConnState) (v : Txnr × Bool) : RelpConnState :=
  let st1 := recordVerdict st v
  let r := cookPending st1.pending st1.successes st1.failures st1.written
  ⟨r.2.1, r.2.2.1, r.1, r.2.2.2⟩

/-- `handleResponses` over a connection on which the txnrs `sent` were
received (in that order), processing the verdict events in `events`. -/
def relpRun (sent : List Txnr) (events : List (Txnr × Bool)) : RelpConnState :=
  events.foldl relpStep ⟨[], [], sent, []⟩

theorem cookPending_spine (pending : List Txnr) (succ fail written : List (Txnr × Bool)) :
    ((cookPending pending succ fail written).2.2.2).map Prod.fst ++
        (cookPending pending succ fail written).1 =
      written.map Prod.fst ++ pending := by
  induction pending generalizing succ fail written with
  | nil => simp [cookPending]
  | cons next rest ih =>
    by_cases hs : mlookup succ next = some true
    · rw [show cookPending (next :: rest) succ fail written =
          cookPending rest (mset succ next false) fail (written ++ [(next, true)]) from by
        simp [cookPending, hs]]
      rw [ih]
      simp
    · by_cases hf : mlookup fail next = some true
      · rw [show cookPending (next :: rest) succ fail written =
            cookPending rest succ (mset fail next false) (written ++ [(next, false)]) from by
          simp [cookPending, hs, hf]]
        rw [ih]
        simp
      · simp [cookPending, hs, hf]

theorem relpStep_spine (st : RelpConnState) (v : Txnr × Bool) :
    (relpStep st v).written.map Prod.fst ++ (relpStep st v).pending =
      st.written.map Prod.fst ++ st.pending := by
  have hrec : (recordVerdict st v).written = st.written ∧
      (recordVerdict st v).pending = st.pending := by
    unfold recordVerdict
    split
    · exact ⟨rfl, rfl⟩
    · split
      · exact ⟨rfl, rfl⟩
      · split <;> exact ⟨rfl, rfl⟩
  have h := cookPending_spine (recordVerdict st v).pending (recordVerdict st v).successes
    (recordVerdict st v).failures (recordVerdict st v).written
  simpa [relpStep, hrec.1, hrec.2] using h

theorem relpRun_spine (sent : List Txnr) (events : List (Txnr × Bool)) :
    (relpRun sent events).written.map Prod.fst ++ (relpRun sent events).pending = sent := by
  suffices h : ∀ st : RelpConnState, ∀ evs : List (Txnr × Bool),
      (evs.foldl relpStep st).written.map Prod.fst ++ (evs.foldl relpStep st).pending =
        st.written.map Prod.fst ++ st.pending by
    simpa using h ⟨[], [], sent, []⟩ events
  intro st evs
  induction evs generalizing st with
  | nil => rfl
  | cons v rest ih => rw [List.foldl_cons, ih, relpStep_spine]

theorem mlookup_mset (m : List (Txnr × Bool)) (t t' : Txnr) (b : Bool) :
    mlookup (mset m t b) t' = if t = t' then some b else mlookup m t' := by
  induction m with
  | nil =>
    by_cases h : t = t' <;> simp [mset, mlookup, h]
  | cons p rest ih =>
    cases p with
    | mk k v =>
      by_cases hk : k = t
      · subst hk
        by_cases h : k = t' <;> simp [mset, mlookup, h]
      · by_cases h : k = t'
        · subst h
          have : ¬ t = k := fun hh => hk hh.symm
          simp [mset, mlookup, hk, this]
        · simp [mset, mlookup, hk, h, ih]

/-- Map/trace soundness invariant: every key of `successes` was delivered as
a success verdict, every key of `failures` as a failure verdict, and every
written frame corresponds to a delivered verdict. -/
def RelpSound (st : RelpConnState) (delivered : List (Txnr × Bool)) : Prop :=
  (∀ t, (mlookup st.successes t).isSome → (t, true) ∈ delivered) ∧
  (∀ t, (mlookup st.failures t).isSome → (t, false) ∈ delivered) ∧
  (∀ p ∈ st.written, p ∈ delivered)

theorem cookPending_sound (delivered : List (Txnr × Bool)) (pending : List Txnr)
    (succ fail written : List (Txnr × Bool))
    (hs : ∀ t, (mlookup succ t).isSome → (t, true) ∈ delivered)
    (hf : ∀ t, (mlookup fail t).isSome → (t, false) ∈ delivered)
    (hw : ∀ p ∈ written, p ∈ delivered) :
    (∀ t, (mlookup (cookPending pending succ fail written).2.1 t).isSome → (t, true) ∈ delivered) ∧
    (∀ t, (mlookup (cookPending pending succ fail written).2.2.1 t).isSome →
      (t, false) ∈ delivered) ∧
    (∀ p ∈ (cookPending pending succ fail written).2.2.2, p ∈ delivered) := by
  induction pending generalizing succ fail written with
  | nil => exact ⟨hs, hf, hw⟩
  | cons next rest ih =>
    by_cases hsucc : mlookup succ next = some true
    · rw [show cookPending (next :: rest) succ fail written =
          cookPending rest (mset succ next false) fail (written ++ [(next, true)]) from by
        simp [cookPending, hsucc]]
      apply ih
      · intro t ht
        rw [mlookup_mset] at ht
        by_cases hnt : next = t
        · subst hnt; exact hs next (by simp [hsucc])
        · exact hs t (by simpa [hnt] using ht)
      · exact hf
      · intro p hp
        rcases List.mem_append.mp hp with hp | hp
        · exact hw p hp
        · have : p = (next, true) := by simpa using hp
          subst this
          exact hs next (by simp [hsucc])
    · by_cases hfail : mlookup fail next = some true
      · rw [show cookPending (next :: rest) succ fail written =
            cookPending rest succ (mset fail next false) (written ++ [(next, false)]) from by
          simp [cookPending, hsucc, hfail]]
        apply ih
        · exact hs
        · intro t ht
          rw [mlookup_mset] at ht
          by_cases hnt : next = t
          · subst hnt; exact hf next (by simp [hfail])
          · exact hf t (by simpa [hnt] using ht)
        · intro p hp
          rcases List.mem_append.mp hp with hp | hp
          · exact hw p hp
          · have : p = (next, false) := by simpa using hp
            subst this
            exact hf next (by simp [hfail])
      · rw [show cookPending (next :: rest) succ fail written =
            (next :: rest, succ, fail, written) from by simp [cookPending, hsucc, hfail]]
        exact ⟨hs, hf, hw⟩

theorem relpStep_sound (st : RelpConnState) (v : Txnr × Bool)
    (delivered : List (Txnr × Bool)) (hv : v ∈ delivered)
    (h : RelpSound st delivered) : RelpSound (relpStep st v) delivered := by
  obtain ⟨hs, hf, hw⟩ := h
  have hrec : RelpSound (recordVerdict st v) delivered := by
    unfold recordVerdict
    split
    · exact ⟨hs, hf, hw⟩
    · split
      · exact ⟨hs, hf, hw⟩
      · split
        · refine ⟨?_, hf, hw⟩
          intro t ht
          rw [mlookup_mset] at ht
          by_cases hvt : v.1 = t
          · subst hvt
            have hvv : v = (v.1, true) := by
              cases v with | mk a b => cases b with
                | true => rfl
                | false => simp_all
            rw [← hvv]; exact hv
          · exact hs t (by simpa [hvt] using ht)
        · refine ⟨hs, ?_, hw⟩
          intro t ht
          rw [mlookup_mset] at ht
          by_cases hvt : v.1 = t
          · subst hvt
            have hvv : v = (v.1, false) := by
              cases v with | mk a b => cases b with
                | true => simp_all
                | false => rfl
            rw [← hvv]; exact hv
          · exact hf t (by simpa [hvt] using ht)
  exact cookPending_sound delivered (recordVerdict st v).pending _ _ _
    hrec.1 hrec.2.1 hrec.2.2

theorem relpRun_sound (sent : List Txnr) (events : List (Txnr × Bool)) :
    ∀ p ∈ (relpRun sent events).written, p ∈ events := by
  suffices h : ∀ (delivered : List (Txnr × Bool)) (st : RelpConnState)
      (evs : List (Txnr × Bool)), (∀ e ∈ evs, e ∈ delivered) →
      RelpSound st delivered → RelpSound (evs.foldl relpStep st) delivered by
    exact (h events ⟨[], [], sent, []⟩ events (fun e he => he)
      ⟨fun t ht => by simp [mlookup] at ht, fun t ht => by simp [mlookup] at ht,
        fun p hp => by simp at hp⟩).2.2
  intro delivered st evs
  induction evs generalizing st with
  | nil => exact fun _ h => h
  | cons v rest ih =>
    intro hsub hst
    exact ih (relpStep st v) (fun e he => hsub e (List.mem_cons_of_mem v he))
      (relpStep_sound st v delivered (hsub v (List.mem_cons_self v rest)) hst)

/-- C1: over any RELP connection whose received txnrs `sent` are strictly
increasing, after any interleaving of success/failure verdict deliveries the
`rsp` frames written back form exactly a prefix of `sent` (a frame is
written for a txnr only when it is the forwarder's next-to-commit value, and
next-to-commit advances past it afterwards, so out-of-order verdicts wait);
consequently the written txnr sequence is strictly increasing, and every
written frame answers a verdict that was actually delivered. -/
theorem relp_rsp_txnrs_strictly_increasing (sent : List Txnr)
    (events : List (Txnr × Bool)) (hchain : sent.Chain' (fun a b => a < b)) :
    (relpRun sent events).written.map Prod.fst ++ (relpRun sent events).pending = sent ∧
    (relpRun sent events).written.map Prod.fst =
      sent.take (relpRun sent events).written.length ∧
    (relpRun sent events).pending = sent.drop (relpRun sent events).written.length ∧
    ((relpRun sent events).written.map Prod.fst).Chain' (fun a b => a < b) ∧
    (∀ p ∈ (relpRun sent events).written, p ∈ events) := by
  have hsound := relpRun_sound sent events
  set w := (relpRun sent events).written with hwdef
  set p := (relpRun sent events).pending with hpdef
  have hspine : w.map Prod.fst ++ p = sent := relpRun_spine sent events
  have hlen : (w.map Prod.fst).length = w.length := List.length_map _ _
  refine ⟨hspine, ?_, ?_, ?_, hsound⟩
  · rw [← hspine, ← hlen, List.take_left]
  · rw [← hspine, ← hlen, List.drop_left]
  · rw [← hspine] at hchain
    exact (List.chain'_append.mp hchain).1

/-- Witness for C1: txnrs `1,2,3` are sent; the verdict for `2` arrives
before the verdict for `1`; the writer still answers `1` then `2`, and `3`
stays pending. -/
theorem relp_rsp_txnrs_strictly_increasing_witness :
    ([1, 2, 3] : List Txnr).Chain' (fun a b => a < b) ∧
    (relpRun [1, 2, 3] [(2, true), (1, true)]).written = [(1, true), (2, true)] ∧
    (relpRun [1, 2, 3] [(2, true), (1, true)]).written.map Prod.fst =
      ([1, 2, 3] : List Txnr).take 2 ∧
    ((relpRun [1, 2, 3] [(2, true), (1, true)]).written.map Prod.fst).Chain'
      (fun a b => a < b) :=
  ⟨by simp [List.chain'_cons, List.chain'_singleton], by decide, by
    have h := (relp_rsp_txnrs_strictly_increasing [1, 2, 3] [(2, true), (1, true)]
      (by simp [List.chain'_cons, List.chain'_singleton])).2.1
    simpa using h,
    (relp_rsp_txnrs_strictly_increasing [1, 2, 3] [(2, true), (1, true)]
      (by simp [List.chain'_cons, List.chain'_singleton])).2.2.2.1⟩

/-! ### MPMC ring buffer (`utils/queue/rawtcp.go`, `RawTCPRing`) -/

/-- Fuel-driven ceiling base-2 logarithm: `log2CeilGo n steps` is the least
`k` with `n ≤ 2 ^ k`, provided `steps` is large enough (halving reaches 1
within `n` steps). -/
def log2CeilGo : Nat → Nat → Nat
  | _, 0 => 0
  | n, steps + 1 => if n ≤ 1 then 0 else log2CeilGo ((n + 1) / 2) steps + 1

/-- Modelled from the spec: `roundUp` (the function itself is not among the
sources at hand, only its call in `RawTCPRing.init` is) returns the least
power of two greater than or equal to the requested size. -/
def roundUp (n : Nat) : Nat := 2 ^ log2CeilGo n n

theorem log2CeilGo_spec (steps : Nat) :
    ∀ n, n ≤ steps + 1 →
      n ≤ 2 ^ log2CeilGo n steps ∧ ∀ k, n ≤ 2 ^ k → log2CeilGo n steps ≤ k := by
  induction steps with
  | zero =>
    intro n hn
    constructor
    · simpa [log2CeilGo] using hn
    · intro k _
      simp [log2CeilGo]
  | succ s ih =>
    intro n hn
    by_cases h1 : n ≤ 1
    · exact ⟨by simpa [log2CeilGo, h1] using h1, fun k _ => by simp [log2CeilGo, h1]⟩
    · have hval : log2CeilGo n (s + 1) = log2CeilGo ((n + 1) / 2) s + 1 := by
        simp [log2CeilGo, h1]
      have hm : (n + 1) / 2 ≤ s + 1 := by omega
      obtain ⟨ihle, ihmin⟩ := ih ((n + 1) / 2) hm
      rw [hval]
      constructor
      · calc n ≤ 2 * ((n + 1) / 2) := by omega
          _ ≤ 2 * 2 ^ log2CeilGo ((n + 1) / 2) s := by omega
          _ = 2 ^ (log2CeilGo ((n + 1) / 2) s + 1) := by rw [pow_succ]; ring
      · intro k hk
        cases k with
        | zero => simp at hk; omega
        | succ j =>
          have hpow : n ≤ 2 * 2 ^ j := by
            have h2j : (2 : Nat) ^ (j + 1) = 2 * 2 ^ j := by rw [pow_succ]; ring
            omega
          have hmj : (n + 1) / 2 ≤ 2 ^ j := by omega
          have := ihmin j hmj
          omega

theorem roundUp_ge (n : Nat) : n ≤ roundUp n := (log2CeilGo_spec n n (by omega)).1

theorem roundUp_min (n k : Nat) (h : n ≤ 2 ^ k) : roundUp n ≤ 2 ^ k :=
  Nat.pow_le_pow_right (by omega) ((log2CeilGo_spec n n (by omega)).2 k h)

/-- Bounds-free access to the `position` field of node `i` (slot indices
are always reduced modulo the capacity, so access is in bounds; an empty
node list yields 0). -/
def nthD : List Nat → Nat → Nat
  | [], _ => 0
  | x :: _, 0 => x
  | _ :: rest, i + 1 => nthD rest i

/-- State of a `RawTCPRing`: the `queue` and `dequeue` sequence counters,
the `position` field of each node (indexed by slot), the stored items, and
the `disposed` flag.  In the source the counters and positions are `uint64`;
they only ever grow by one per completed operation, so plain naturals model
them exactly below the unreached wrap-around at `2^64`.  The slot index
`pos & mask` is written `pos % capacity`, which is equal because the
capacity is a power of two and `mask = capacity - 1`. -/
structure RawTCPRing where
  queue : Nat
  dequeue : Nat
  nodes : List Nat
  data : List (Option Nat)
  disposed : Bool
  deriving DecidableEq, Repr

/-- `RawTCPRing.init` as called from `NewRawTCPRing`: the size is rounded up
and node `i` starts with `position = i`. -/
def ringInit (size : Nat) : RawTCPRing :=
  { queue := 0, dequeue := 0,
    nodes := List.range (roundUp size),
    data := List.replicate (roundUp size) none,
    disposed := false }

/-- `RawTCPRing.Cap`. -/
def ringCap (rb : RawTCPRing) : Nat := rb.nodes.length

/-- `RawTCPRing.Len`: `queue - dequeue`. -/
def ringLen (rb : RawTCPRing) : Nat := rb.queue - rb.dequeue

/-- Errors returned by the ring operations. -/
inductive RingErr where
  | disposedErr
  | timeoutErr
  deriving DecidableEq, Repr

/-- One completed pass of the CAS loop shared by `Put` and `Offer`
(`RawTCPRing.put`): a disposed ring returns `ErrDisposed` (checked at the
top of every iteration); when the target slot's position equals `queue`,
the item is stored, the slot position becomes `queue + 1` and `queue`
advances; otherwise the ring is full and the state is unchanged (`Offer`
returns `(false, nil)`, a blocking `Put` keeps spinning). -/
def ringPut (rb : RawTCPRing) (item : Nat) : RawTCPRing × Bool × Option RingErr :=
  if rb.disposed then (rb, false, some .disposedErr)
  else
    let pos := rb.queue
    let idx := pos % rb.nodes.length
    let seq := nthD rb.nodes idx
    if seq = pos then
      ({ rb with
          queue := pos + 1,
          nodes := rb.nodes.set idx (pos + 1),
          data := rb.data.set idx (some item) }, true, none)
    else (rb, false, none)

/-- One completed pass of the loop in `RawTCPRing.Poll` (`Get` is
`Poll 0`): when the target slot's position equals `dequeue + 1`, the item is
taken, the slot position becomes `dequeue + mask + 1` and `dequeue`
advances; otherwise the ring is empty, and only then is the disposed flag
consulted — an empty disposed ring returns `ErrDisposed`, an empty live one
keeps blocking or times out. -/
def ringPoll (rb : RawTCPRing) : RawTCPRing × Option Nat × Option RingErr :=
  let pos := rb.dequeue
  let idx := pos % rb.nodes.length
  let seq := nthD rb.nodes idx
  if seq = pos + 1 then
    ({ rb with
        dequeue := pos + 1,
        nodes := rb.nodes.set idx (pos + rb.nodes.length),
        data := rb.data.set idx none }, rb.data.getD idx none, none)
  else if rb.disposed then (rb, none, some .disposedErr)
  else (rb, none, none)

/-- `RawTCPRing.Dispose`: compare-and-swap the flag from 0 to 1. -/
def ringDispose (rb : RawTCPRing) : RawTCPRing := { rb with disposed := true }

/-- The operations a client can perform on the ring. -/
inductive RingOp where
  | put (item : Nat)
  | offer (item : Nat)
  | get
  | poll
  | dispose
  deriving DecidableEq, Repr

/-- Effect of one completed operation on the ring state. -/
def ringApply (rb : RawTCPRing) : RingOp → RawTCPRing
  | .put item => (ringPut rb item).1
  | .offer item => (ringPut rb item).1
  | .get => (ringPoll rb).1
  | .poll => (ringPoll rb).1
  | .dispose => ringDispose rb

/-- A sequence of completed operations. -/
def ringRun (rb : RawTCPRing) (ops : List RingOp) : RawTCPRing := ops.foldl ringApply rb

/-- Number of enqueue sequence values below `q` that target slot `i` of a
ring of capacity `c` (closed form for `#(s < q | s % c = i)`). -/
def putCnt (c q i : Nat) : Nat := (q + c - 1 - i) / c

/-- The position slot `i` holds when the counters are `q` and `d`: a slot
with equally many puts and gets awaits its next put, a slot with one more
put than gets awaits its next get. -/
def slotPos (c q d i : Nat) : Nat :=
  if putCnt c q i = putCnt c d i then i + c * putCnt c q i
  else i + 1 + c * (putCnt c q i - 1)

/-- The reachable-state invariant of the ring (for capacities of at least
two): the dequeue counter trails the enqueue counter by at most the
capacity, and every slot position is the canonical one determined by the
two counters. -/
def RingInv (rb : RawTCPRing) : Prop :=
  2 ≤ rb.nodes.length ∧
  rb.dequeue ≤ rb.queue ∧
  rb.queue ≤ rb.dequeue + rb.nodes.length ∧
  ∀ i, i < rb.nodes.length →
    nthD rb.nodes i = slotPos rb.nodes.length rb.queue rb.dequeue i

theorem putCnt_dvd_iff (c q i : Nat) (hi : i < c) :
    c ∣ (q + c - i) ↔ q % c = i := by
  constructor
  · rintro ⟨k, hk⟩
    rcases Nat.eq_zero_or_pos k with rfl | hk1
    · rw [Nat.mul_zero] at hk
      omega
    · have hmul : c * (k - 1) + c = c * k := by
        calc c * (k - 1) + c = c * (k - 1 + 1) := by rw [Nat.mul_add, Nat.mul_one]
          _ = c * k := by congr 1; omega
      have hq : q = c * (k - 1) + i := by omega
      rw [hq, Nat.mul_add_mod]
      exact Nat.mod_eq_of_lt hi
  · intro h
    refine ⟨q / c + 1, ?_⟩
    have := Nat.div_add_mod q c
    rw [Nat.mul_add]
    omega

theorem putCnt_succ (c q i : Nat) (hi : i < c) :
    putCnt c (q + 1) i = putCnt c q i + (if q % c = i then 1 else 0) := by
  have hc : 0 < c := by omega
  have h1 : q + 1 + c - 1 - i = (q + c - 1 - i) + 1 := by omega
  unfold putCnt
  rw [h1, Nat.succ_div]
  have h2 : q + c - 1 - i + 1 = q + c - i := by omega
  rw [h2]
  by_cases h : q % c = i
  · simp [h, (putCnt_dvd_iff c q i hi).mpr h]
  · have : ¬ c ∣ (q + c - i) := fun hd => h ((putCnt_dvd_iff c q i hi).mp hd)
    simp [h, this]

theorem putCnt_add_cap (c d i : Nat) (hc : 0 < c) (hi : i < c) :
    putCnt c (d + c) i = putCnt c d i + 1 := by
  unfold putCnt
  have h1 : d + c + c - 1 - i = (d + c - 1 - i) + c := by omega
  rw [h1, Nat.add_div_right _ hc]

theorem putCnt_self (c q : Nat) (hc : 0 < c) : putCnt c q (q % c) = q / c := by
  unfold putCnt
  have hmod := Nat.div_add_mod q c
  have hlt : q % c < c := Nat.mod_lt _ hc
  have h1 : q + c - 1 - q % c = (c - 1) + c * (q / c) := by omega
  rw [h1, Nat.add_mul_div_left _ _ hc, Nat.div_eq_of_lt (by omega)]
  omega

theorem putCnt_mono (c i : Nat) {q q' : Nat} (h : q ≤ q') :
    putCnt c q i ≤ putCnt c q' i :=
  Nat.div_le_div_right (by omega)

theorem nthD_set_self : ∀ (l : List Nat) (i : Nat), i < l.length →
    ∀ a : Nat, nthD (l.set i a) i = a := by
  intro l
  induction l with
  | nil => intro i hi; simp at hi
  | cons x rest ih =>
    intro i hi a
    cases i with
    | zero => rfl
    | succ j => exact ih j (by simpa using hi) a

theorem nthD_set_ne : ∀ (l : List Nat) (i j : Nat), i ≠ j →
    ∀ a : Nat, nthD (l.set i a) j = nthD l j := by
  intro l
  induction l with
  | nil => intro i j h a; cases i <;> rfl
  | cons x rest ih =>
    intro i j h a
    cases i with
    | zero =>
      cases j with
      | zero => exact absurd rfl h
      | succ j0 => rfl
    | succ i0 =>
      cases j with
      | zero => rfl
      | succ j0 => exact ih i0 j0 (fun hh => h (by rw [hh])) a

theorem nthD_eq_get : ∀ (l : List Nat) (i : Nat) (h : i < l.length),
    nthD l i = l.get ⟨i, h⟩ := by
  intro l
  induction l with
  | nil => intro i h; simp at h
  | cons x rest ih =>
    intro i h
    cases i with
    | zero => rfl
    | succ j => exact ih j (by simpa using h)

theorem nthD_range (c i : Nat) (h : i < c) : nthD (List.range c) i = i := by
  rw [nthD_eq_get _ _ (by simpa using h)]
  exact List.get_range _ _

theorem ringPut_disposed (rb : RawTCPRing) (item : Nat) (hd : rb.disposed = true) :
    ringPut rb item = (rb, false, some RingErr.disposedErr) := by
  simp [ringPut, hd]

theorem ringPut_enabled (rb : RawTCPRing) (item : Nat) (hd : rb.disposed = false)
    (hen : nthD rb.nodes (rb.queue % rb.nodes.length) = rb.queue) :
    ringPut rb item =
      ({ rb with
          queue := rb.queue + 1,
          nodes := rb.nodes.set (rb.queue % rb.nodes.length) (rb.queue + 1),
          data := rb.data.set (rb.queue % rb.nodes.length) (some item) }, true, none) := by
  simp [ringPut, hd, hen]

theorem ringPut_full (rb : RawTCPRing) (item : Nat) (hd : rb.disposed = false)
    (hen : ¬ nthD rb.nodes (rb.queue % rb.nodes.length) = rb.queue) :
    ringPut rb item = (rb, false, none) := by
  simp [ringPut, hd, hen]

theorem ringPoll_enabled (rb : RawTCPRing)
    (hen : nthD rb.nodes (rb.dequeue % rb.nodes.length) = rb.dequeue + 1) :
    ringPoll rb =
      ({ rb with
          dequeue := rb.dequeue + 1,
          nodes := rb.nodes.set (rb.dequeue % rb.nodes.length) (rb.dequeue + rb.nodes.length),
          data := rb.data.set (rb.dequeue % rb.nodes.length) none },
        rb.data.getD (rb.dequeue % rb.nodes.length) none, none) := by
  simp [ringPoll, hen]

theorem ringPoll_empty_disposed (rb : RawTCPRing)
    (hen : ¬ nthD rb.nodes (rb.dequeue % rb.nodes.length) = rb.dequeue + 1)
    (hd : rb.disposed = true) :
    ringPoll rb = (rb, none, some RingErr.disposedErr) := by
  simp [ringPoll, hen, hd]

theorem ringPoll_empty_live (rb : RawTCPRing)
    (hen : ¬ nthD rb.nodes (rb.dequeue % rb.nodes.length) = rb.dequeue + 1)
    (hd : rb.disposed = false) :
    ringPoll rb = (rb, none, none) := by
  simp [ringPoll, hen, hd]

theorem ringPut_inv (rb : RawTCPRing) (item : Nat) (h : RingInv rb) :
    RingInv (ringPut rb item).1 := by
  obtain ⟨hc, hdq, hqd, hpos⟩ := h
  have hc0 : 0 < rb.nodes.length := by omega
  have hi : rb.queue % rb.nodes.length < rb.nodes.length := Nat.mod_lt _ hc0
  cases hdisp : rb.disposed with
  | true =>
    rw [ringPut_disposed rb item hdisp]
    exact ⟨hc, hdq, hqd, hpos⟩
  | false =>
    by_cases hen : nthD rb.nodes (rb.queue % rb.nodes.length) = rb.queue
    · rw [ringPut_enabled rb item hdisp hen]
      have hval : slotPos rb.nodes.length rb.queue rb.dequeue
          (rb.queue % rb.nodes.length) = rb.queue := by
        rw [← hpos _ hi, hen]
      have hPq := putCnt_self rb.nodes.length rb.queue hc0
      have hdm := Nat.div_add_mod rb.queue rb.nodes.length
      -- an enabled slot must be in the empty branch when the capacity is ≥ 2
      have hempty : putCnt rb.nodes.length rb.queue (rb.queue % rb.nodes.length) =
          putCnt rb.nodes.length rb.dequeue (rb.queue % rb.nodes.length) := by
        by_contra hne
        have hfull := hval
        unfold slotPos at hfull
        rw [if_neg hne, hPq] at hfull
        have hG := putCnt_mono rb.nodes.length (rb.queue % rb.nodes.length) hdq
        have hx1 : 1 ≤ rb.queue / rb.nodes.length := by
          rcases Nat.eq_zero_or_pos (rb.queue / rb.nodes.length) with h0 | h1
          · rw [hPq] at hne hG
            omega
          · exact h1
        have hmul : rb.nodes.length * (rb.queue / rb.nodes.length - 1) +
            rb.nodes.length * 1 = rb.nodes.length * (rb.queue / rb.nodes.length) := by
          rw [← Nat.mul_add]
          congr 1
          omega
        omega
      have hlt : rb.queue < rb.dequeue + rb.nodes.length := by
        by_contra hge
        have hqe : rb.queue = rb.dequeue + rb.nodes.length := by omega
        have hadd := putCnt_add_cap rb.nodes.length rb.dequeue
          (rb.queue % rb.nodes.length) hc0 hi
        rw [← hqe] at hadd
        omega
      refine ⟨?_, ?_, ?_, ?_⟩
      · show 2 ≤ (rb.nodes.set (rb.queue % rb.nodes.length) (rb.queue + 1)).length
        rw [List.length_set]
        exact hc
      · show rb.dequeue ≤ rb.queue + 1
        omega
      · show rb.queue + 1 ≤ rb.dequeue +
          (rb.nodes.set (rb.queue % rb.nodes.length) (rb.queue + 1)).length
        rw [List.length_set]
        omega
      · intro j hj
        have hj2 : j < rb.nodes.length := by simpa using hj
        show nthD (rb.nodes.set (rb.queue % rb.nodes.length) (rb.queue + 1)) j =
          slotPos (rb.nodes.set (rb.queue % rb.nodes.length) (rb.queue + 1)).length
            (rb.queue + 1) rb.dequeue j
        rw [List.length_set]
        by_cases hji : j = rb.queue % rb.nodes.length
        · subst hji
          rw [nthD_set_self _ _ hi _]
          have hsucc := putCnt_succ rb.nodes.length rb.queue
            (rb.queue % rb.nodes.length) hi
          rw [if_pos rfl] at hsucc
          have hne2 : putCnt rb.nodes.length (rb.queue + 1) (rb.queue % rb.nodes.length) ≠
              putCnt rb.nodes.length rb.dequeue (rb.queue % rb.nodes.length) := by omega
          unfold slotPos
          rw [if_neg hne2, hsucc, hPq]
          have hsub : rb.queue / rb.nodes.length + 1 - 1 = rb.queue / rb.nodes.length := by
            omega
          rw [hsub]
          omega
        · rw [nthD_set_ne _ _ _ (fun hh => hji hh.symm) _, hpos j hj2]
          have hsucc := putCnt_succ rb.nodes.length rb.queue j hj2
          rw [if_neg (fun hh => hji hh.symm)] at hsucc
          have hsucc2 : putCnt rb.nodes.length (rb.queue + 1) j =
              putCnt rb.nodes.length rb.queue j := by omega
          unfold slotPos
          rw [hsucc2]
    · rw [ringPut_full rb item hdisp hen]
      exact ⟨hc, hdq, hqd, hpos⟩

theorem ringPoll_inv (rb : RawTCPRing) (h : RingInv rb) : RingInv (ringPoll rb).1 := by
  obtain ⟨hc, hdq, hqd, hpos⟩ := h
  have hc0 : 0 < rb.nodes.length := by omega
  have hi : rb.dequeue % rb.nodes.length < rb.nodes.length := Nat.mod_lt _ hc0
  by_cases hen : nthD rb.nodes (rb.dequeue % rb.nodes.length) = rb.dequeue + 1
  · rw [ringPoll_enabled rb hen]
    have hval : slotPos rb.nodes.length rb.queue rb.dequeue
        (rb.dequeue % rb.nodes.length) = rb.dequeue + 1 := by
      rw [← hpos _ hi, hen]
    have hGd := putCnt_self rb.nodes.length rb.dequeue hc0
    have hdm := Nat.div_add_mod rb.dequeue rb.nodes.length
    have hfull : putCnt rb.nodes.length rb.queue (rb.dequeue % rb.nodes.length) ≠
        putCnt rb.nodes.length rb.dequeue (rb.dequeue % rb.nodes.length) := by
      intro hemp
      unfold slotPos at hval
      rw [if_pos hemp, hemp, hGd] at hval
      omega
    have hlt : rb.dequeue < rb.queue := by
      rcases Nat.lt_or_ge rb.dequeue rb.queue with h | h
      · exact h
      · have heqd : rb.queue = rb.dequeue := by omega
        rw [heqd] at hfull
        exact absurd rfl hfull
    have hadd := putCnt_add_cap rb.nodes.length rb.dequeue
      (rb.dequeue % rb.nodes.length) hc0 hi
    have hmq := putCnt_mono rb.nodes.length (rb.dequeue % rb.nodes.length) hqd
    have hmd := putCnt_mono rb.nodes.length (rb.dequeue % rb.nodes.length) hdq
    have hPval : putCnt rb.nodes.length rb.queue (rb.dequeue % rb.nodes.length) =
        rb.dequeue / rb.nodes.length + 1 := by omega
    refine ⟨?_, ?_, ?_, ?_⟩
    · show 2 ≤ (rb.nodes.set (rb.dequeue % rb.nodes.length)
        (rb.dequeue + rb.nodes.length)).length
      rw [List.length_set]
      exact hc
    · show rb.dequeue + 1 ≤ rb.queue
      omega
    · show rb.queue ≤ rb.dequeue + 1 + (rb.nodes.set (rb.dequeue % rb.nodes.length)
        (rb.dequeue + rb.nodes.length)).length
      rw [List.length_set]
      omega
    · intro j hj
      have hj2 : j < rb.nodes.length := by simpa using hj
      show nthD (rb.nodes.set (rb.dequeue % rb.nodes.length)
          (rb.dequeue + rb.nodes.length)) j =
        slotPos (rb.nodes.set (rb.dequeue % rb.nodes.length)
          (rb.dequeue + rb.nodes.length)).length rb.queue (rb.dequeue + 1) j
      rw [List.length_set]
      by_cases hji : j = rb.dequeue % rb.nodes.length
      · subst hji
        rw [nthD_set_self _ _ hi _]
        have hsucc := putCnt_succ rb.nodes.length rb.dequeue
          (rb.dequeue % rb.nodes.length) hi
        rw [if_pos rfl] at hsucc
        have hemp2 : putCnt rb.nodes.length rb.queue (rb.dequeue % rb.nodes.length) =
            putCnt rb.nodes.length (rb.dequeue + 1) (rb.dequeue % rb.nodes.length) := by
          omega
        unfold slotPos
        rw [if_pos hemp2, hPval, Nat.mul_add, Nat.mul_one]
        omega
      · rw [nthD_set_ne _ _ _ (fun hh => hji hh.symm) _, hpos j hj2]
        have hsucc := putCnt_succ rb.nodes.length rb.dequeue j hj2
        rw [if_neg (fun hh => hji hh.symm)] at hsucc
        have hsucc2 : putCnt rb.nodes.length (rb.dequeue + 1) j =
            putCnt rb.nodes.length rb.dequeue j := by omega
        unfold slotPos
        rw [hsucc2]
  · cases hdisp : rb.disposed with
    | true =>
      rw [ringPoll_empty_disposed rb hen hdisp]
      exact ⟨hc, hdq, hqd, hpos⟩
    | false =>
      rw [ringPoll_empty_live rb hen hdisp]
      exact ⟨hc, hdq, hqd, hpos⟩

theorem ringApply_inv (rb : RawTCPRing) (op : RingOp) (h : RingInv rb) :
    RingInv (ringApply rb op) := by
  cases op with
  | put item => exact ringPut_inv rb item h
  | offer item => exact ringPut_inv rb item h
  | get => exact ringPoll_inv rb h
  | poll => exact ringPoll_inv rb h
  | dispose => exact h

theorem ringRun_inv (rb : RawTCPRing) (ops : List RingOp) (h : RingInv rb) :
    RingInv (ringRun rb ops) := by
  induction ops generalizing rb with
  | nil => exact h
  | cons op rest ih => exact ih _ (ringApply_inv rb op h)

theorem ringInit_inv (size : Nat) (h2 : 2 ≤ roundUp size) : RingInv (ringInit size) := by
  refine ⟨?_, ?_, ?_, ?_⟩
  · show 2 ≤ (List.range (roundUp size)).length
    rw [List.length_range]
    exact h2
  · show (0 : Nat) ≤ 0
    omega
  · show (0 : Nat) ≤ 0 + (List.range (roundUp size)).length
    omega
  · intro i hi
    have hi2 : i < roundUp size := by simpa [ringInit] using hi
    show nthD (List.range (roundUp size)) i =
      slotPos (List.range (roundUp size)).length 0 0 i
    rw [List.length_range, nthD_range _ _ hi2]
    unfold slotPos
    rw [if_pos rfl]
    have hz : putCnt (roundUp size) 0 i = 0 := Nat.div_eq_of_lt (by omega)
    rw [hz, Nat.mul_zero]
    omega

theorem ringPut_cap (rb : RawTCPRing) (item : Nat) :
    (ringPut rb item).1.nodes.length = rb.nodes.length := by
  cases hdisp : rb.disposed with
  | true => rw [ringPut_disposed rb item hdisp]
  | false =>
    by_cases hen : nthD rb.nodes (rb.queue % rb.nodes.length) = rb.queue
    · rw [ringPut_enabled rb item hdisp hen]
      exact List.length_set _ _ _
    · rw [ringPut_full rb item hdisp hen]

theorem ringPoll_cap (rb : RawTCPRing) :
    (ringPoll rb).1.nodes.length = rb.nodes.length := by
  by_cases hen : nthD rb.nodes (rb.dequeue % rb.nodes.length) = rb.dequeue + 1
  · rw [ringPoll_enabled rb hen]
    exact List.length_set _ _ _
  · cases hdisp : rb.disposed with
    | true => rw [ringPoll_empty_disposed rb hen hdisp]
    | false => rw [ringPoll_empty_live rb hen hdisp]

theorem ringApply_cap (rb : RawTCPRing) (op : RingOp) :
    ringCap (ringApply rb op) = ringCap rb := by
  cases op with
  | put item => exact ringPut_cap rb item
  | offer item => exact ringPut_cap rb item
  | get => exact ringPoll_cap rb
  | poll => exact ringPoll_cap rb
  | dispose => rfl

theorem ringRun_cap (rb : RawTCPRing) (ops : List RingOp) :
    ringCap (ringRun rb ops) = ringCap rb := by
  induction ops generalizing rb with
  | nil => rfl
  | cons op rest ih =>
    rw [show ringRun rb (op :: rest) = ringRun (ringApply rb op) rest from rfl, ih,
      ringApply_cap]

/-- Counterexample to C8 as stated: a ring whose requested size is 1 gets
capacity 1, and two consecutive `Put`s both succeed (the single slot's
position equals the enqueue counter again after one lap), driving `Len()`
to 2 while `Cap()` is 1. -/
theorem ring_size_one_len_exceeds_cap :
    ringLen (ringRun (ringInit 1) [RingOp.put 7, RingOp.put 8]) = 2 ∧
    ringCap (ringRun (ringInit 1) [RingOp.put 7, RingOp.put 8]) = 1 ∧
    ¬ ringLen (ringRun (ringInit 1) [RingOp.put 7, RingOp.put 8]) ≤
        ringCap (ringRun (ringInit 1) [RingOp.put 7, RingOp.put 8]) := by
  decide

/-- C8 (amended): a newly created ring's capacity is the least power of two
greater than or equal to the requested size; `Len()` is by construction the
enqueue sequence number minus the dequeue sequence number; and for any
requested size of at least 2, after any sequence of `Put`/`Offer`/`Get`/
`Poll` (and `Dispose`) operations `Len()` never exceeds `Cap()` — for
requested size 1 the bound fails. -/
theorem ring_capacity_and_len_bound (size : Nat) (hsize : 2 ≤ size) (ops : List RingOp) :
    (size ≤ ringCap (ringRun (ringInit size) ops) ∧
      (∃ k, ringCap (ringRun (ringInit size) ops) = 2 ^ k) ∧
      (∀ k, size ≤ 2 ^ k → ringCap (ringRun (ringInit size) ops) ≤ 2 ^ k)) ∧
    ringLen (ringRun (ringInit size) ops) =
      (ringRun (ringInit size) ops).queue - (ringRun (ringInit size) ops).dequeue ∧
    ringLen (ringRun (ringInit size) ops) ≤ ringCap (ringRun (ringInit size) ops) := by
  have hcap : ringCap (ringRun (ringInit size) ops) = roundUp size := by
    rw [ringRun_cap]
    simp [ringInit, ringCap]
  have h2 : 2 ≤ roundUp size := le_trans hsize (roundUp_ge size)
  have hinv := ringRun_inv (ringInit size) ops (ringInit_inv size h2)
  obtain ⟨hc, hdq, hqd, _⟩ := hinv
  refine ⟨⟨?_, ?_, ?_⟩, rfl, ?_⟩
  · rw [hcap]; exact roundUp_ge size
  · exact ⟨log2CeilGo size size, by rw [hcap]; rfl⟩
  · intro k hk; rw [hcap]; exact roundUp_min size k hk
  · have : ringCap (ringRun (ringInit size) ops) =
        (ringRun (ringInit size) ops).nodes.length := rfl
    unfold ringLen
    omega

/-- Witness for C8 at requested size 5 and a concrete operation sequence:
capacity 8, length 2 after three puts and one get. -/
theorem ring_capacity_and_len_bound_witness :
    (2 : Nat) ≤ 5 ∧
    ringCap (ringRun (ringInit 5) [RingOp.put 1, RingOp.put 2, RingOp.put 3, RingOp.get]) = 8 ∧
    ringLen (ringRun (ringInit 5) [RingOp.put 1, RingOp.put 2, RingOp.put 3, RingOp.get]) = 2 ∧
    ringLen (ringRun (ringInit 5) [RingOp.put 1, RingOp.put 2, RingOp.put 3, RingOp.get]) ≤
      ringCap (ringRun (ringInit 5) [RingOp.put 1, RingOp.put 2, RingOp.put 3, RingOp.get]) :=
  ⟨by decide, by decide, by decide,
    (ring_capacity_and_len_bound 5 (by decide)
      [RingOp.put 1, RingOp.put 2, RingOp.put 3, RingOp.get]).2.2⟩

/-- C9: `Dispose` is idempotent; after `Dispose`, every `Put`/`Offer`
attempt returns the `Disposed` error without modifying the ring; and a
`Get`/`Poll` attempt on an empty disposed ring — pending waiters re-run the
same loop body — returns the `Disposed` error instead of blocking. -/
theorem ring_dispose_idempotent_and_fails (rb : RawTCPRing) (hinv : RingInv rb)
    (hempty : rb.queue = rb.dequeue) :
    ringDispose (ringDispose rb) = ringDispose rb ∧
    (∀ rb2 : RawTCPRing, rb2.disposed = true →
      ∀ x, ringPut rb2 x = (rb2, false, some RingErr.disposedErr)) ∧
    ringPoll (ringDispose rb) = (ringDispose rb, none, some RingErr.disposedErr) := by
  obtain ⟨hc, hdq, hqd, hpos⟩ := hinv
  refine ⟨rfl, ?_, ?_⟩
  · intro rb2 hdisp x
    unfold ringPut
    rw [if_pos hdisp]
  · have hc0 : 0 < rb.nodes.length := by omega
    have hi : rb.dequeue % rb.nodes.length < rb.nodes.length := Nat.mod_lt _ hc0
    have hslot : nthD rb.nodes (rb.dequeue % rb.nodes.length) = rb.dequeue := by
      rw [hpos _ hi, hempty]
      unfold slotPos
      rw [if_pos rfl, putCnt_self _ _ hc0]
      have := Nat.div_add_mod rb.dequeue rb.nodes.length
      omega
    have hne : ¬ nthD rb.nodes (rb.dequeue % rb.nodes.length) = rb.dequeue + 1 := by
      rw [hslot]
      omega
    exact ringPoll_empty_disposed (ringDispose rb) hne rfl

/-- Witness for C9: the freshly initialised ring of requested size 4
(capacity 4) is empty; after disposing it, polling returns the `Disposed`
error and the state is unchanged. -/
theorem ring_dispose_idempotent_and_fails_witness :
    RingInv (ringInit 4) ∧ (ringInit 4).queue = (ringInit 4).dequeue ∧
    ringPoll (ringDispose (ringInit 4)) =
      (ringDispose (ringInit 4), none, some RingErr.disposedErr) :=
  ⟨by unfold RingInv; decide, by decide,
    (ring_dispose_idempotent_and_fails (ringInit 4) (by unfold RingInv; decide)
      (by decide)).2.2⟩

end Skewer
